import Mathlib

/-!
Verification of the line-selection engine of the `read_lines` extension
(`src/line_selection.cpp`, `src/include/line_selection.hpp`).

The C++ code is shallowly embedded below.  `int64_t` values are modelled as
`Int`; every arithmetic operation of the source that can overflow is performed
through `i64wrap`, which reduces the mathematical result modulo 2^64 into the
two's-complement range `[-2^63, 2^63 - 1]` (comparisons and `max`/`min` cannot
overflow and are used directly).  C++ strings are modelled as `List Char`.
Fallible parsing functions return `Except String _`; the message strings follow
the `InvalidInputException` format strings of the source (without the `%lld`
substitutions, which do not matter for any property proved here).
-/

namespace ReadLines

/-- `std::numeric_limits<int64_t>::max()`. -/
def I64_MAX : Int := 2 ^ 63 - 1

/-- `std::numeric_limits<int64_t>::min()`. -/
def I64_MIN : Int := -(2 ^ 63)

/-- Two's-complement wrap-around of a mathematical integer into the `int64_t`
range, modelling what happens on mainstream targets when a C++ signed 64-bit
addition overflows. -/
def i64wrap (x : Int) : Int := (x + 2 ^ 63) % 2 ^ 64 - 2 ^ 63

/-- `struct LineRange` (`line_selection.hpp`): a closed interval of 1-based
line numbers.  The C++ field `end` is called `stop` here because `end` is a
Lean keyword. -/
structure LineRange where
  start : Int
  stop : Int
  deriving DecidableEq, Repr

/-- `LineRange::Contains`: `line >= start && line <= end`. -/
def LineRange.Contains (r : LineRange) (line : Int) : Bool :=
  decide (line ≥ r.start) && decide (line ≤ r.stop)

/-- One step of the insertion sort modelling
`std::sort(ranges.begin(), ranges.end(), [](a, b) { return a.start < b.start; })`.
The sort is modelled as a stable sort on the `start` key; all mainstream
`std::sort` implementations preserve the relative order of a two-element
range whose elements compare equivalent, which is the only tie behaviour any
theorem below depends on. -/
def insertByStart (r : LineRange) : List LineRange → List LineRange
  | [] => [r]
  | x :: xs => if x.start ≤ r.start then x :: insertByStart r xs else r :: x :: xs

/-- The sorting step of `LineSelection::MergeRanges`. -/
def sortByStart (l : List LineRange) : List LineRange :=
  l.foldl (fun acc r => insertByStart r acc) []

/-- The merge loop of `LineSelection::MergeRanges`: `last` is the current
`merged.back()`, `rest` the remaining sorted input.  The comparison
`current.start <= last.end + 1` performs an `int64_t` addition, hence the
`i64wrap`. -/
def mergeLoop (last : LineRange) : List LineRange → List LineRange
  | [] => [last]
  | c :: cs =>
    if decide (c.start ≤ i64wrap (last.stop + 1)) then
      mergeLoop ⟨last.start, max last.stop c.stop⟩ cs
    else
      last :: mergeLoop c cs

/-- `LineSelection::MergeRanges`: sort by `start`, then merge overlapping or
adjacent ranges. -/
def mergeRanges (ranges : List LineRange) : List LineRange :=
  match sortByStart ranges with
  | [] => []
  | x :: xs => mergeLoop x xs

/-- `class LineSelection`: either the `match_all_` sentinel or the merged
range list `ranges_`. -/
structure LineSelection where
  match_all : Bool
  ranges : List LineRange
  deriving DecidableEq, Repr

/-- `LineSelection::All()`. -/
def LineSelection.all : LineSelection := ⟨true, []⟩

/-- The private constructor `LineSelection(vector<LineRange>)`, which stores
`MergeRanges(ranges)`. -/
def LineSelection.ofRanges (l : List LineRange) : LineSelection :=
  ⟨false, mergeRanges l⟩

/-- The range-list scan of `LineSelection::ShouldIncludeLine`. -/
def shouldIncludeLineRanges (n : Int) : List LineRange → Bool
  | [] => false
  | r :: rs =>
    if r.Contains n then true
    else if decide (n < r.start) then false
    else shouldIncludeLineRanges n rs

/-- `LineSelection::ShouldIncludeLine`. -/
def LineSelection.shouldIncludeLine (sel : LineSelection) (n : Int) : Bool :=
  if sel.match_all then true else shouldIncludeLineRanges n sel.ranges

/-- `LineSelection::PastAllRanges`. -/
def LineSelection.pastAllRanges (sel : LineSelection) (n : Int) : Bool :=
  if sel.match_all then false
  else
    match sel.ranges.getLast? with
    | none => true
    | some r => decide (n > r.stop)

/-- `ApplyContextToRange`: `start = max(1, start - before); end = end + after`
(both `int64_t` operations). -/
def applyContextToRange (r : LineRange) (before after : Int) : LineRange :=
  ⟨max 1 (i64wrap (r.start - before)), i64wrap (r.stop + after)⟩

/-- `LineSelection::AddContext`: widen every range in place, then re-merge. -/
def LineSelection.addContext (sel : LineSelection) (before after : Int) :
    LineSelection :=
  if sel.match_all then sel
  else
    ⟨sel.match_all,
     mergeRanges (sel.ranges.map (fun r =>
       ⟨max 1 (i64wrap (r.start - before)), i64wrap (r.stop + after)⟩))⟩

/-! ### Character and string helpers -/

/-- `std::isdigit` (C locale). -/
def isDigitC (c : Char) : Bool := decide ('0' ≤ c) && decide (c ≤ '9')

/-- `std::isspace` (C locale), also the character set of DuckDB
`StringUtil::CharacterIsSpace`. -/
def isSpaceC (c : Char) : Bool :=
  c = ' ' || c = '\t' || c = '\n' || c = '\x0b' || c = '\x0c' || c = '\r'

/-- `StringUtil::Trim`: strip leading and trailing whitespace. -/
def trimL (s : List Char) : List Char :=
  ((s.dropWhile isSpaceC).reverse.dropWhile isSpaceC).reverse

/-- Value of a run of decimal digit characters. -/
def digitsVal (ds : List Char) : Nat :=
  ds.foldl (fun a c => a * 10 + (c.toNat - 48)) 0

/-- `std::stoll` (base 10): skip leading whitespace, optional sign, then a
non-empty digit run (trailing garbage ignored); `invalid_argument` when no
digits, `out_of_range` when outside `int64_t`.  Both exception kinds are
reported as `Except.error ()` since every caller treats them alike. -/
def stollC (s : List Char) : Except Unit Int :=
  let t := s.dropWhile isSpaceC
  let signAndRest : Int × List Char :=
    match t with
    | '-' :: rest => (-1, rest)
    | '+' :: rest => (1, rest)
    | _ => (1, t)
  let ds := signAndRest.2.takeWhile isDigitC
  if ds.isEmpty then .error ()
  else
    let v : Int := signAndRest.1 * (digitsVal ds : Int)
    if v < I64_MIN || v > I64_MAX then .error () else .ok v

/-- `trimmed.find("...")`: index of the first ellipsis. -/
def findEllipsisAux : List Char → Nat → Option Nat
  | '.' :: '.' :: '.' :: _, i => some i
  | _ :: rest, i => findEllipsisAux rest (i + 1)
  | [], _ => none

def findEllipsis (s : List Char) : Option Nat := findEllipsisAux s 0

/-- The dash-separator scan of `LineSelection::ParseRangeString` (lines
361-387): walk the characters left to right remembering the previous
character; a dash is a separator when it is at position 0 and followed by a
digit (head form), or follows a digit and is followed by a digit (full range)
or by end-of-string or a space (tail form). -/
def findDashAux : Option Char → List Char → Nat → Option Nat
  | _, [], _ => none
  | prev, c :: cs, i =>
    let hit : Bool :=
      c = '-' &&
        (match prev with
         | none =>
           (match cs with
            | d :: _ => isDigitC d
            | [] => false)
         | some p =>
           isDigitC p &&
             (match cs with
              | d :: _ => isDigitC d || d = ' '
              | [] => true))
    if hit then some i else findDashAux (some c) cs (i + 1)

def findDashPos (s : List Char) : Option Nat := findDashAux none s 0

/-- The context-boundary scan of `ParseRangeString` (lines 400-414): find the
first space (at index ≥ the scan start) that is followed, after skipping
further spaces, by a `-` or `+`. -/
def findCtxBoundaryAux : List Char → Nat → Option Nat
  | [], _ => none
  | c :: cs, i =>
    let hit : Bool :=
      c = ' ' &&
        (match cs.dropWhile (fun x => x = ' ') with
         | d :: _ => d = '-' || d = '+'
         | [] => false)
    if hit then some i else findCtxBoundaryAux cs (i + 1)

/-- The `-B`/`+A` loop of `ParseContextSuffix` (lines 298-346).  `fuel` is an
upper bound on the remaining iterations (each iteration consumes at least one
character, so `suffix.length + 1` always suffices); the `fuel = 0` branch is
unreachable under that call pattern. -/
def ctxSuffixLoop : Nat → List Char → Int → Int → Bool → Bool →
    Except String (Int × Int)
  | 0, _, _, _, _, _ => .error "Invalid context specifier"
  | fuel + 1, rest, before, after, found_before, found_after =>
    match rest.dropWhile isSpaceC with
    | [] => .ok (before, after)
    | c :: cs =>
      if c = '-' && !found_before then
        let ds := cs.takeWhile isDigitC
        if ds.isEmpty then
          .error "Invalid context specifier: expected number after minus"
        else
          match stollC ds with
          | .error _ => .error "out_of_range"
          | .ok b =>
            if b < 0 then .error "Before context must be >= 0"
            else ctxSuffixLoop fuel (cs.drop ds.length) b after true found_after
      else if c = '+' && !found_after then
        let ds := cs.takeWhile isDigitC
        if ds.isEmpty then
          .error "Invalid context specifier: expected number after plus"
        else
          match stollC ds with
          | .error _ => .error "out_of_range"
          | .ok a =>
            if a < 0 then .error "After context must be >= 0"
            else ctxSuffixLoop fuel (cs.drop ds.length) before a found_before true
      else .error "Invalid context specifier"

/-- `ParseContextSuffix` (lines 265-347).  Returns the `(before, after)` pair;
the C++ `bool` result is discarded by the only caller, and the out-parameters
are initialised to `(0, 0)`, so the no-context cases return `.ok (0, 0)`. -/
def parseContextSuffix (str : List Char) (line_spec_end : Nat) :
    Except String (Int × Int) :=
  if line_spec_end ≥ str.length then .ok (0, 0)
  else
    let sfx := trimL (str.drop line_spec_end)
    if sfx.isEmpty then .ok (0, 0)
    else if sfx.length ≥ 4 &&
        (sfx.take 3 = ['+', '/', '-'] || sfx.take 3 = ['-', '/', '+']) then
      match stollC (sfx.drop 3) with
      | .error _ => .error "Invalid context specifier"
      | .ok ctx =>
        if ctx < 0 then .error "Context value must be >= 0" else .ok (ctx, ctx)
    else ctxSuffixLoop (sfx.length + 1) sfx 0 0 false false

/-- The range-form branch of `ParseRangeString` (lines 426-476): split the
line spec at the separator, handle head/tail/full forms, validate. -/
def parseRangeSplit (start_str end_str : List Char) :
    Except String LineRange :=
  let parsed : Except String (Int × Int) :=
    if start_str.isEmpty && !end_str.isEmpty then
      match stollC end_str with
      | .error _ => .error "Invalid line range"
      | .ok e => .ok (1, e)
    else if !start_str.isEmpty && end_str.isEmpty then
      match stollC start_str with
      | .error _ => .error "Invalid line range"
      | .ok s => .ok (s, I64_MAX)
    else if !start_str.isEmpty && !end_str.isEmpty then
      match stollC start_str, stollC end_str with
      | .ok s, .ok e => .ok (s, e)
      | _, _ => .error "Invalid line range"
    else .error "Invalid line range"
  match parsed with
  | .error e => .error e
  | .ok (s, e) =>
    if s < 1 then .error "Line range start must be >= 1"
    else if e < s then .error "Line range end must be >= start"
    else .ok ⟨s, e⟩

/-- `LineSelection::ParseRangeString` (lines 349-495). -/
def parseRangeStringL (str : List Char) : Except String LineRange :=
  let trimmed := trimL str
  let ellipsis_pos := findEllipsis trimmed
  let dash_pos : Option Nat :=
    match ellipsis_pos with
    | some _ => none
    | none => findDashPos trimmed
  let sep : Option (Nat × Nat) :=
    match ellipsis_pos, dash_pos with
    | some e, _ => some (e, 3)
    | none, some d => some (d, 1)
    | none, none => none
  let search_start : Nat :=
    match sep with
    | some (p, len) => p + len
    | none => 0
  let line_spec_end : Nat :=
    match findCtxBoundaryAux (trimmed.drop search_start) search_start with
    | some i => i
    | none => trimmed.length
  let line_spec := trimL (trimmed.take line_spec_end)
  match parseContextSuffix trimmed line_spec_end with
  | .error e => .error e
  | .ok (before, after) =>
    let core : Except String LineRange :=
      match sep with
      | some (sp, _) =>
        if sp < line_spec_end then
          match ellipsis_pos with
          | some e =>
            parseRangeSplit (trimL (line_spec.take e))
              (trimL (line_spec.drop (e + 3)))
          | none =>
            match dash_pos with
            | some d =>
              parseRangeSplit (trimL (line_spec.take d))
                (trimL (line_spec.drop (d + 1)))
            | none => .error "Invalid line range"
        else
          match stollC line_spec with
          | .error _ => .error "Invalid line number"
          | .ok line =>
            if line < 1 then .error "Line number must be >= 1"
            else .ok ⟨line, line⟩
      | none =>
        match stollC line_spec with
        | .error _ => .error "Invalid line number"
        | .ok line =>
          if line < 1 then .error "Line number must be >= 1"
          else .ok ⟨line, line⟩
    match core with
    | .error e => .error e
    | .ok range => .ok (applyContextToRange range before after)

/-- `ParseRangeString` on a Lean string literal. -/
def parseRangeString (s : String) : Except String LineRange :=
  parseRangeStringL s.data

/-! ### Structured-spec parser -/

/-- A DuckDB struct field value as far as `ParseLineStruct` inspects it:
SQL NULL, an integer, a boolean, or a list of integers. -/
inductive FieldVal where
  | vnull
  | vint (i : Int)
  | vbool (b : Bool)
  | vlist (xs : List Int)
  deriving DecidableEq, Repr

/-- `Value::GetValue<int64_t>` on a non-null field: integers pass through,
booleans cast (DuckDB casts `true` to 1), lists fail to cast. -/
def FieldVal.getI64 : FieldVal → Except String Int
  | .vint i => .ok i
  | .vbool b => .ok (if b then 1 else 0)
  | .vlist _ => .error "cast failure"
  | .vnull => .error "null value"

/-- `Value::GetValue<bool>` on a non-null field. -/
def FieldVal.getBool : FieldVal → Except String Bool
  | .vbool b => .ok b
  | .vint i => .ok (decide (i ≠ 0))
  | .vlist _ => .error "cast failure"
  | .vnull => .error "null value"

/-- The local variables of `ParseLineStruct` (lines 109-117), with the same
sentinel encodings: `-1` for "not specified", empty list for `lines`. -/
structure StructState where
  start : Int
  stop : Int
  line : Int
  lines : List Int
  inclusive : Bool
  before : Int
  after : Int
  context : Int
  deriving Repr

def initStructState : StructState := ⟨-1, -1, -1, [], true, 0, 0, -1⟩

/-- One iteration of the field loop of `ParseLineStruct` (lines 119-168). -/
def structField (st : StructState) (f : String × FieldVal) :
    Except String StructState :=
  let name := f.1
  let v := f.2
  if name = "start" then
    if v = .vnull then .ok st
    else do
      let x ← v.getI64
      .ok { st with start := x }
  else if name = "stop" then
    if v = .vnull then .ok st
    else do
      let x ← v.getI64
      .ok { st with stop := x }
  else if name = "line" then
    if v = .vnull then .ok st
    else do
      let x ← v.getI64
      .ok { st with line := x }
  else if name = "lines" then
    if v = .vnull then .ok st
    else
      match v with
      | .vlist xs => .ok { st with lines := st.lines ++ xs }
      | _ => .error "cast failure"
  else if name = "inclusive" then
    if v = .vnull then .ok st
    else do
      let b ← v.getBool
      .ok { st with inclusive := b }
  else if name = "before" then
    if v = .vnull then .ok st
    else do
      let x ← v.getI64
      if x < 0 then .error "Struct before must be >= 0"
      else .ok { st with before := x }
  else if name = "after" then
    if v = .vnull then .ok st
    else do
      let x ← v.getI64
      if x < 0 then .error "Struct after must be >= 0"
      else .ok { st with after := x }
  else if name = "context" then
    if v = .vnull then .ok st
    else do
      let x ← v.getI64
      if x < 0 then .error "Struct context must be >= 0"
      else .ok { st with context := x }
  else .ok st

/-- The `{lines: [...]}` branch of `ParseLineStruct` (lines 217-226). -/
def linesToRanges (before after : Int) : List Int →
    Except String (List LineRange)
  | [] => .ok []
  | l :: ls =>
    if l < 1 then .error "Line number must be >= 1"
    else do
      let rest ← linesToRanges before after ls
      .ok (applyContextToRange ⟨l, l⟩ before after :: rest)

/-- `ParseLineStruct` (lines 104-233), taking the struct as the list of its
`(field name, field value)` children in declaration order. -/
def parseLineStruct (fields : List (String × FieldVal)) :
    Except String (List LineRange) := do
  let st ← fields.foldlM structField initStructState
  let before := if st.context ≥ 0 then st.context else st.before
  let after := if st.context ≥ 0 then st.context else st.after
  if st.start ≥ 0 && st.stop ≥ 0 then
    if st.start < 1 then .error "Line range start must be >= 1"
    else
      let effective_end := if st.inclusive then st.stop else st.stop - 1
      if effective_end < st.start then .error "Line range stop must be beyond start"
      else .ok [applyContextToRange ⟨st.start, effective_end⟩ before after]
  else if st.start ≥ 0 && st.stop < 0 then
    if st.start < 1 then .error "Line range start must be >= 1"
    else .ok [applyContextToRange ⟨st.start, I64_MAX⟩ before after]
  else if st.stop ≥ 0 && st.start < 0 then
    let effective_end := if st.inclusive then st.stop else st.stop - 1
    if effective_end < 1 then .error "Line range stop must be >= 1"
    else .ok [applyContextToRange ⟨1, effective_end⟩ before after]
  else if st.line ≥ 0 then
    if st.line < 1 then .error "Line number must be >= 1"
    else .ok [applyContextToRange ⟨st.line, st.line⟩ before after]
  else if !st.lines.isEmpty then
    linesToRanges before after st.lines
  else .error "Line selection struct must have start and stop, line, or lines"

/-! ### Top-level `Parse` dispatch -/

/-- The shapes of a DuckDB `Value` that `LineSelection::Parse` distinguishes.
`intV` stands for all eight integer type ids; `structV` carries the struct's
named children; `otherV` is any other type id. -/
inductive Value where
  | null
  | intV (i : Int)
  | strV (s : List Char)
  | structV (fields : List (String × FieldVal))
  | listV (items : List Value)
  | otherV
  deriving Repr

/-- `IsLineStruct` (lines 78-100): the struct type has a `start`, `stop`,
`line`, or `lines` child. -/
def isLineStruct (fields : List (String × FieldVal)) : Bool :=
  fields.any (fun f =>
    f.1 = "start" || f.1 = "stop" || f.1 = "line" || f.1 = "lines")

/-- One iteration of the list loop of `LineSelection::Parse` (lines 50-65):
strings go through `ParseRangeString`, line structs through
`ParseLineStruct`, anything else through `GetValue<int64_t>` (which fails on
nested lists and other non-castable shapes). -/
def parseListItem : Value → Except String (List LineRange)
  | .strV s => do
    let r ← parseRangeStringL s
    .ok [r]
  | .structV fields =>
    if isLineStruct fields then parseLineStruct fields
    else .error "cast failure"
  | .intV i =>
    if i < 1 then .error "Line number must be >= 1" else .ok [⟨i, i⟩]
  | .null => .error "cast failure"
  | .listV _ => .error "cast failure"
  | .otherV => .error "cast failure"

def parseListItems : List Value → Except String (List LineRange)
  | [] => .ok []
  | v :: vs => do
    let rs ← parseListItem v
    let rest ← parseListItems vs
    .ok (rs ++ rest)

/-- `LineSelection::Parse` (lines 23-75). -/
def LineSelection.parse (v : Value) : Except String LineSelection :=
  match v with
  | .null => .ok LineSelection.all
  | .intV i =>
    if i < 1 then .error "Line number must be >= 1"
    else .ok (LineSelection.ofRanges [⟨i, i⟩])
  | .strV s => do
    let r ← parseRangeStringL s
    .ok (LineSelection.ofRanges [r])
  | .structV fields =>
    if isLineStruct fields then do
      let rs ← parseLineStruct fields
      if rs.isEmpty then .ok LineSelection.all
      else .ok (LineSelection.ofRanges rs)
    else .error "Invalid type for lines parameter"
  | .listV items => do
    let rs ← parseListItems items
    if rs.isEmpty then .ok LineSelection.all
    else .ok (LineSelection.ofRanges rs)
  | .otherV => .error "Invalid type for lines parameter"

/-! ### Path-spec extractor -/

/-- `std::isalpha` (C locale). -/
def isAlphaC (c : Char) : Bool :=
  (decide ('A' ≤ c) && decide (c ≤ 'Z')) || (decide ('a' ≤ c) && decide (c ≤ 'z'))

/-- Indexing `path[i]`; all uses below are guarded by length checks that
mirror the source's. -/
def chAt (p : List Char) (i : Nat) : Char := p.getD i ' '

/-- Does a line spec start at index `k` (the character right after a
candidate colon)?  Mirrors lines 599-620: a digit, a `-` immediately
followed by a digit, or a `...` ellipsis. -/
def specStartsAt (p : List Char) (k : Nat) : Bool :=
  decide (k < p.length) &&
    (if isDigitC (chAt p k) then true
     else if chAt p k = '-' then
       decide (k + 1 < p.length) && isDigitC (chAt p (k + 1))
     else if chAt p k = '.' then
       decide (k + 2 < p.length) && decide (chAt p (k + 1) = '.') &&
         decide (chAt p (k + 2) = '.')
     else false)

/-- The backward colon scan of `ParsePathWithLineSpec` (lines 596-623):
`findColonAux p i` examines indices `i - 1, i - 2, ..., 0`. -/
def findColonAux (p : List Char) : Nat → Option Nat
  | 0 => none
  | i + 1 =>
    if chAt p i = ':' && specStartsAt p (i + 1) then some i
    else findColonAux p i

def findColonPos (p : List Char) : Option Nat := findColonAux p p.length

/-- `LineSelection::ParsePathWithLineSpec` (lines 580-652), including the
Windows drive-letter guard and the catch-all fallback. -/
def parsePathWithLineSpecL (path : List Char) : List Char × LineSelection :=
  match findColonPos path with
  | none => (path, LineSelection.all)
  | some colon_pos =>
    if colon_pos = 1 && isAlphaC (chAt path 0) &&
        (decide (colon_pos + 1 < path.length) &&
          (chAt path (colon_pos + 1) = '\\' || chAt path (colon_pos + 1) = '/')) then
      (path, LineSelection.all)
    else
      match parseRangeStringL (path.drop (colon_pos + 1)) with
      | .ok r => (path.take colon_pos, LineSelection.ofRanges [r])
      | .error _ => (path, LineSelection.all)

/-- `ParsePathWithLineSpec` on Lean strings. -/
def parsePathWithLineSpec (path : String) : String × LineSelection :=
  let r := parsePathWithLineSpecL path.data
  (String.mk r.1, r.2)

/-- A line number is covered by some range of a list (the point-set semantics
of a range list). -/
def covers (l : List LineRange) (n : Int) : Prop :=
  ∃ r ∈ l, r.start ≤ n ∧ n ≤ r.stop

/-- A range is valid (`1 ≤ start ≤ end`) with its end strictly below the
unbounded-tail sentinel `INT64_MAX`, so that the adjacency test
`current.start <= last.end + 1` cannot overflow. -/
def ValidR (r : LineRange) : Prop :=
  1 ≤ r.start ∧ r.start ≤ r.stop ∧ r.stop < I64_MAX

/-! ### Sortedness of the merged range list -/

theorem i64wrap_eq_self {x : Int} (h1 : I64_MIN ≤ x) (h2 : x ≤ I64_MAX) :
    i64wrap x = x := by
  have h0 : (0 : Int) ≤ x + 2 ^ 63 := by
    simp only [I64_MIN] at h1; omega
  have hlt : x + 2 ^ 63 < 2 ^ 64 := by
    simp only [I64_MAX] at h2
    have : (2 : Int) ^ 64 = 2 ^ 63 + 2 ^ 63 := by norm_num
    omega
  simp only [i64wrap]
  rw [Int.emod_eq_of_lt h0 hlt]
  omega

theorem insertByStart_perm (r : LineRange) (l : List LineRange) :
    (insertByStart r l).Perm (r :: l) := by
  induction l with
  | nil => simp [insertByStart]
  | cons x xs ih =>
    simp only [insertByStart]
    split
    · exact ((ih.cons x).trans (List.Perm.swap r x xs))
    · exact List.Perm.refl _

theorem insertByStart_sorted {l : List LineRange} (r : LineRange)
    (h : List.Pairwise (fun a b => a.start ≤ b.start) l) :
    List.Pairwise (fun a b => a.start ≤ b.start) (insertByStart r l) := by
  induction l with
  | nil => simp [insertByStart]
  | cons x xs ih =>
    rw [List.pairwise_cons] at h
    simp only [insertByStart]
    split
    · rw [List.pairwise_cons]
      refine ⟨fun y hy => ?_, ih h.2⟩
      rcases List.mem_cons.mp ((insertByStart_perm r xs).mem_iff.mp hy) with hy | hy
      · rw [hy]; assumption
      · exact h.1 y hy
    · rw [List.pairwise_cons]
      refine ⟨fun y hy => ?_, List.Pairwise.cons h.1 h.2⟩
      rcases List.mem_cons.mp hy with hy | hy
      · rw [hy]; omega
      · have := h.1 y hy; omega

theorem sortByStart_foldl_perm (l acc : List LineRange) :
    (l.foldl (fun acc r => insertByStart r acc) acc).Perm (acc ++ l) := by
  induction l generalizing acc with
  | nil => simp
  | cons r rs ih =>
    simp only [List.foldl_cons]
    refine (ih (insertByStart r acc)).trans ?_
    refine (((insertByStart_perm r acc).append_right rs).trans ?_)
    exact (@List.perm_middle _ r acc rs).symm

theorem sortByStart_perm (l : List LineRange) : (sortByStart l).Perm l := by
  simpa [sortByStart] using sortByStart_foldl_perm l []

theorem sortByStart_foldl_sorted (l : List LineRange) :
    ∀ acc, List.Pairwise (fun a b => a.start ≤ b.start) acc →
      List.Pairwise (fun a b => a.start ≤ b.start)
        (l.foldl (fun acc r => insertByStart r acc) acc) := by
  induction l with
  | nil => intro acc h; simpa using h
  | cons r rs ih =>
    intro acc h
    exact ih _ (insertByStart_sorted r h)

theorem sortByStart_sorted (l : List LineRange) :
    List.Pairwise (fun a b => a.start ≤ b.start) (sortByStart l) :=
  sortByStart_foldl_sorted l [] (List.Pairwise.nil)

theorem mergeLoop_mem_start (rest : List LineRange) :
    ∀ (a y : LineRange), y ∈ mergeLoop a rest →
      ∃ x ∈ a :: rest, y.start = x.start := by
  induction rest with
  | nil =>
    intro a y hy
    simp only [mergeLoop, List.mem_singleton] at hy
    exact ⟨a, List.mem_cons_self a [], by rw [hy]⟩
  | cons c cs ih =>
    intro a y hy
    simp only [mergeLoop] at hy
    split at hy
    · rcases ih _ y hy with ⟨x, hx, hee⟩
      rcases List.mem_cons.mp hx with hx | hx
      · exact ⟨a, List.mem_cons_self a _, by rw [hee, hx]⟩
      · exact ⟨x, List.mem_cons_of_mem a (List.mem_cons_of_mem c hx), hee⟩
    · rcases List.mem_cons.mp hy with hy | hy
      · exact ⟨a, List.mem_cons_self a _, by rw [hy]⟩
      · rcases ih _ y hy with ⟨x, hx, hee⟩
        exact ⟨x, List.mem_cons_of_mem a hx, hee⟩

theorem mergeLoop_sorted (rest : List LineRange) :
    ∀ a, List.Pairwise (fun a b => a.start ≤ b.start) (a :: rest) →
      List.Pairwise (fun a b => a.start ≤ b.start) (mergeLoop a rest) := by
  induction rest with
  | nil => intro a _; simp [mergeLoop]
  | cons c cs ih =>
    intro a h
    rw [List.pairwise_cons] at h
    obtain ⟨ha, h2⟩ := h
    simp only [mergeLoop]
    split
    · refine ih _ ?_
      rw [List.pairwise_cons]
      exact ⟨fun y hy => ha y (List.mem_cons_of_mem c hy),
        (List.pairwise_cons.mp h2).2⟩
    · rw [List.pairwise_cons]
      refine ⟨fun y hy => ?_, ih c h2⟩
      rcases mergeLoop_mem_start cs c y hy with ⟨x, hx, hee⟩
      rw [hee]
      exact ha x hx

theorem mergeRanges_sorted (l : List LineRange) :
    List.Pairwise (fun a b => a.start ≤ b.start) (mergeRanges l) := by
  rw [mergeRanges]
  rcases hs : sortByStart l with _ | ⟨x, xs⟩
  · exact List.Pairwise.nil
  · exact mergeLoop_sorted xs x (by rw [← hs]; exact sortByStart_sorted l)

theorem shouldIncludeLineRanges_iff {l : List LineRange} (n : Int)
    (h : List.Pairwise (fun a b => a.start ≤ b.start) l) :
    (shouldIncludeLineRanges n l = true ↔
      ∃ r ∈ l, r.start ≤ n ∧ n ≤ r.stop) := by
  induction l with
  | nil => simp [shouldIncludeLineRanges]
  | cons r rs ih =>
    rw [List.pairwise_cons] at h
    by_cases hc : (r.start ≤ n ∧ n ≤ r.stop)
    · have hct : r.Contains n = true := by
        simp [LineRange.Contains, hc.1, hc.2]
      have hstep : shouldIncludeLineRanges n (r :: rs) = true := by
        simp [shouldIncludeLineRanges, hct]
      rw [hstep]
      exact iff_of_true rfl ⟨r, List.mem_cons_self r rs, hc⟩
    · have hcf : r.Contains n = false := by
        simp only [LineRange.Contains, ge_iff_le, Bool.and_eq_false_iff,
          decide_eq_false_iff_not, not_le]
        omega
      by_cases hlt : n < r.start
      · have : shouldIncludeLineRanges n (r :: rs) = false := by
          simp [shouldIncludeLineRanges, hcf, hlt]
        rw [this]
        constructor
        · intro hfalse; exact absurd hfalse (by simp)
        · rintro ⟨r', hm, h1, h2⟩
          rcases List.mem_cons.mp hm with hm | hm
          · rw [hm] at h1 h2; omega
          · have := h.1 r' hm; omega
      · have hstep : shouldIncludeLineRanges n (r :: rs)
            = shouldIncludeLineRanges n rs := by
          simp [shouldIncludeLineRanges, hcf, hlt]
        rw [hstep, ih h.2]
        constructor
        · rintro ⟨r', hm, hb⟩; exact ⟨r', List.mem_cons_of_mem r hm, hb⟩
        · rintro ⟨r', hm, h1, h2⟩
          rcases List.mem_cons.mp hm with hm | hm
          · rw [hm] at h1 h2; exact absurd ⟨h1, h2⟩ hc
          · exact ⟨r', hm, h1, h2⟩

/-! ### Theorems -/

/-- Claim C1: for every line number `n`, `ShouldIncludeLine(n)` returns true
iff the selection is `MatchAll` (in which case it returns true for every `n`,
in particular every `n ≥ 1`) or some range `[s, e]` of its canonical range
list satisfies `s ≤ n ≤ e`.  Every non-`MatchAll` `LineSelection` the code
can construct is built by the private constructor, modelled by
`LineSelection.ofRanges`. -/
theorem claim_C1_should_include_iff :
    (∀ n : Int, LineSelection.all.shouldIncludeLine n = true) ∧
    (∀ (l : List LineRange) (n : Int),
      (LineSelection.ofRanges l).shouldIncludeLine n = true ↔
        ∃ r ∈ (LineSelection.ofRanges l).ranges, r.start ≤ n ∧ n ≤ r.stop) :=
  ⟨fun _ => rfl,
   fun l n => by
     simp only [LineSelection.shouldIncludeLine, LineSelection.ofRanges,
       Bool.false_eq_true, if_false]
     exact shouldIncludeLineRanges_iff n (mergeRanges_sorted l)⟩

/-- Claim C4: `PastAllRanges(n)` is false for `MatchAll`, true whenever the
range list is empty, and otherwise true exactly when `n` exceeds the last
range's end; for a fixed selection it is monotone in `n`. -/
theorem claim_C4_past_all_ranges (sel : LineSelection) (n m : Int) :
    (sel.match_all = true → sel.pastAllRanges n = false) ∧
    (sel.match_all = false → sel.ranges = [] → sel.pastAllRanges n = true) ∧
    (∀ r : LineRange, sel.match_all = false → sel.ranges.getLast? = some r →
      sel.pastAllRanges n = decide (n > r.stop)) ∧
    (sel.pastAllRanges n = true → n ≤ m → sel.pastAllRanges m = true) := by
  obtain ⟨ma, rs⟩ := sel
  simp only [LineSelection.pastAllRanges]
  cases ma with
  | true => simp
  | false =>
    simp only [Bool.false_eq_true, if_false]
    refine ⟨by simp, ?_, ?_, ?_⟩
    · intro _ he; subst he; rfl
    · intro r _ he; rw [he]
    · rcases he : rs.getLast? with _ | r
      · intro _ _; rfl
      · simp only [decide_eq_true_eq, gt_iff_lt]
        omega

/-- Witness for claim C4: the selection with canonical list `[[2,4]]` is past
all ranges at line 5, and the monotone-boundary clause of
`claim_C4_past_all_ranges` propagates this to line 9. -/
theorem claim_C4_witness :
    (⟨false, [⟨2, 4⟩]⟩ : LineSelection).pastAllRanges 5 = true ∧
    (5 : Int) ≤ 9 ∧
    (⟨false, [⟨2, 4⟩]⟩ : LineSelection).pastAllRanges 9 = true :=
  ⟨rfl, by decide,
   (claim_C4_past_all_ranges ⟨false, [⟨2, 4⟩]⟩ 5 9).2.2.2 rfl (by decide)⟩

/-- Claim C6: `ParseRangeString` maps `"42"` to `[42,42]`, maps `"10-20"` and
`"10...20"` to the identical range `[10,20]`, maps `"-50"` to the head range
`[1,50]`, and maps `"100-"` to the tail range `[100, INT64_MAX]`. -/
theorem claim_C6_parse_range_scenarios :
    parseRangeString "42" = .ok ⟨42, 42⟩ ∧
    parseRangeString "10-20" = .ok ⟨10, 20⟩ ∧
    parseRangeString "10...20" = .ok ⟨10, 20⟩ ∧
    parseRangeString "-50" = .ok ⟨1, 50⟩ ∧
    parseRangeString "100-" = .ok ⟨100, I64_MAX⟩ :=
  ⟨rfl, rfl, rfl, rfl, rfl⟩

/-- Claim C7: `ParseRangeString` folds an embedded context suffix into the
returned range via the clamp-and-widen step: the symmetric-context spec
string "42 plus-slash-minus 3" yields `[39,45]`,
`"42 -2 +5"` yields `[40,47]`, and the widened start is always clamped to be
at least 1. -/
theorem claim_C7_context_suffix_scenarios :
    parseRangeString "42 +/-3" = .ok ⟨39, 45⟩ ∧
    parseRangeString "42 -2 +5" = .ok ⟨40, 47⟩ ∧
    ∀ (r : LineRange) (before after : Int),
      1 ≤ (applyContextToRange r before after).start :=
  ⟨rfl, rfl, fun _ _ _ => le_max_left 1 _⟩

/-- Claim C10: parsing an empty list as the `lines` value yields the
`MatchAll` selection, identical to passing NULL. -/
theorem claim_C10_empty_list_is_match_all :
    LineSelection.parse (.listV []) = .ok LineSelection.all ∧
    LineSelection.parse .null = .ok LineSelection.all :=
  ⟨rfl, rfl⟩

/-- Claim C2 (code bug): on the selection built from the ranges
`[5, INT64_MAX]` (a tail range, e.g. the spec `"5-"`) and `[7, 9]`,
`MergeRanges` leaves the two overlapping ranges unmerged — violating the
ascending gap-separated canonical form, since `7 ≤ INT64_MAX + 1` — because
the comparison `current.start <= last.end + 1` overflows `int64_t` and wraps
to `INT64_MIN`.  Consequently `PastAllRanges(10)` reports the scan exhausted
even though `ShouldIncludeLine(10)` is true. -/
theorem claim_C2_merge_overflow_bug :
    mergeRanges [⟨5, I64_MAX⟩, ⟨7, 9⟩] = [⟨5, I64_MAX⟩, ⟨7, 9⟩] ∧
    (7 : Int) ≤ I64_MAX + 1 ∧
    i64wrap (I64_MAX + 1) = I64_MIN ∧
    (LineSelection.ofRanges [⟨5, I64_MAX⟩, ⟨7, 9⟩]).shouldIncludeLine 10 = true ∧
    (LineSelection.ofRanges [⟨5, I64_MAX⟩, ⟨7, 9⟩]).pastAllRanges 10 = true :=
  ⟨rfl, by decide, rfl, rfl, rfl⟩

/-- Claim C5 (code bug): applying after-context to a range whose end is the
unbounded sentinel `INT64_MAX` does not saturate: the per-entry path
(`ParseRangeString "100- +3"`) wraps the end around to the negative value
`2 - 2^63`, and the global path (`AddContext(0, 1)` on a selection holding
the tail range `[100, INT64_MAX]`) wraps it to `INT64_MIN`. -/
theorem claim_C5_after_context_overflows :
    parseRangeString "100- +3" = .ok ⟨100, 2 - 2 ^ 63⟩ ∧
    (2 - 2 ^ 63 : Int) < 1 ∧
    ((LineSelection.ofRanges [⟨100, I64_MAX⟩]).addContext 0 1).ranges
      = [⟨100, I64_MIN⟩] ∧
    I64_MIN < I64_MAX :=
  ⟨rfl, by decide, rfl, by decide⟩

/-- Claim C3, counterexample: the two orderings of the valid range multiset
`{[5, INT64_MAX], [5, 7]}` normalize to different outputs (the overflowing
adjacency test never merges anything into a range that ends at the
`INT64_MAX` sentinel), so `MergeRanges` is not order-independent as claimed. -/
theorem claim_C3_counterexample :
    ([⟨5, I64_MAX⟩, ⟨5, 7⟩] : List LineRange).Perm [⟨5, 7⟩, ⟨5, I64_MAX⟩] ∧
    (1 ≤ (5 : Int) ∧ (5 : Int) ≤ I64_MAX ∧ (5 : Int) ≤ (7 : Int)) ∧
    mergeRanges [⟨5, I64_MAX⟩, ⟨5, 7⟩] = [⟨5, I64_MAX⟩, ⟨5, 7⟩] ∧
    mergeRanges [⟨5, 7⟩, ⟨5, I64_MAX⟩] = [⟨5, I64_MAX⟩] ∧
    [(⟨5, I64_MAX⟩ : LineRange), ⟨5, 7⟩] ≠ [⟨5, I64_MAX⟩] :=
  ⟨by decide, ⟨by decide, by decide, by decide⟩, rfl, rfl, by decide⟩

/-- Claim C8, counterexample: the record `{start: -3, stop: 10}` has both
`start` and `stop` present with `start < 1`, yet `ParseLineStruct` does not
raise an error — the `-1` "not specified" sentinel makes it treat the
negative `start` as absent and produce the head range `[1, 10]`. -/
theorem claim_C8_counterexample :
    parseLineStruct [("start", .vint (-3)), ("stop", .vint 10)]
      = .ok [⟨1, 10⟩] ∧
    (-3 : Int) < 1 :=
  ⟨rfl, by decide⟩

/-- Claim C8, amended: for a structured record whose `start` and `stop`
fields are both present with nonnegative values (nonnegativity is what the
`-1` "not specified" sentinel encoding of `ParseLineStruct` needs to see the
fields at all; a negative value is silently treated as absent, see the
counterexample) and with no context fields, the parser produces the single
range `[start, effective_stop]` with `effective_stop = stop` when `inclusive`
and `stop - 1` otherwise, and raises an error exactly when `start < 1` or
`effective_stop < start`. -/
theorem claim_C8_amended (s e : Int) (inc : Bool)
    (h0 : 0 ≤ s) (h1 : 0 ≤ e) (h2 : s ≤ I64_MAX) (h3 : e ≤ I64_MAX) :
    parseLineStruct
        [("start", .vint s), ("stop", .vint e), ("inclusive", .vbool inc)] =
      (if s < 1 then .error "Line range start must be >= 1"
       else if (if inc then e else e - 1) < s then
         .error "Line range stop must be beyond start"
       else .ok [⟨s, if inc then e else e - 1⟩]) := by
  have hfold :
      [("start", FieldVal.vint s), ("stop", FieldVal.vint e),
        ("inclusive", FieldVal.vbool inc)].foldlM structField initStructState
        = Except.ok ⟨s, e, -1, [], inc, 0, 0, -1⟩ := rfl
  have hs0 : (decide (s ≥ 0)) = true := decide_eq_true (by omega)
  have he0 : (decide (e ≥ 0)) = true := decide_eq_true (by omega)
  simp only [parseLineStruct, hfold, bind, Except.bind, hs0, he0,
    Bool.and_self, if_true, Bool.true_and, ge_iff_le]
  norm_num
  have hse : I64_MIN ≤ s := by simp only [I64_MIN]; omega
  cases inc with
  | true =>
    simp only [if_true]
    split_ifs with hlt heff
    · rfl
    · rfl
    · have hee : I64_MIN ≤ e := by simp only [I64_MIN]; omega
      simp only [applyContextToRange, sub_zero, add_zero,
        i64wrap_eq_self hse h2, i64wrap_eq_self hee h3]
      have hm : max 1 s = s := by omega
      rw [hm]
  | false =>
    simp only [Bool.false_eq_true, if_false]
    split_ifs with hlt heff
    · rfl
    · rfl
    · have hee : I64_MIN ≤ e - 1 := by simp only [I64_MIN]; omega
      have hle : e - 1 ≤ I64_MAX := by omega
      simp only [applyContextToRange, sub_zero, add_zero,
        i64wrap_eq_self hse h2, i64wrap_eq_self hee hle]
      have hm : max 1 s = s := by omega
      rw [hm]

/-- Witness for claim C8 (amended): the record
`{start: 1, stop: 11, inclusive: false}` parses to the single range `[1, 10]`
by `claim_C8_amended`. -/
theorem claim_C8_witness :
    (0 : Int) ≤ 1 ∧ (0 : Int) ≤ 11 ∧ (1 : Int) ≤ I64_MAX ∧
      (11 : Int) ≤ I64_MAX ∧
    parseLineStruct
        [("start", .vint 1), ("stop", .vint 11), ("inclusive", .vbool false)]
      = .ok [⟨1, 10⟩] :=
  ⟨by decide, by decide, by decide, by decide, by
    have h := claim_C8_amended 1 11 false (by decide) (by decide) (by decide)
      (by decide)
    norm_num at h
    exact h⟩

/-! ### The path-spec extractor never fails -/

theorem findColonAux_spec (p : List Char) :
    ∀ i c, findColonAux p i = some c → specStartsAt p (c + 1) = true := by
  intro i
  induction i with
  | zero => intro c h; simp [findColonAux] at h
  | succ i ih =>
    intro c h
    simp only [findColonAux] at h
    split at h
    · rename_i hcond
      obtain ⟨-, h2⟩ := Bool.and_eq_true_iff.mp hcond
      obtain rfl : i = c := by injection h
      exact h2
    · exact ih c h

theorem specStartsAt_next {p : List Char} {k : Nat}
    (h : specStartsAt p k = true) :
    isDigitC (chAt p k) = true ∨ chAt p k = '-' ∨ chAt p k = '.' := by
  simp only [specStartsAt, Bool.and_eq_true, decide_eq_true_eq] at h
  obtain ⟨-, h⟩ := h
  by_cases h1 : isDigitC (chAt p k) = true
  · exact Or.inl h1
  by_cases h2 : chAt p k = '-'
  · exact Or.inr (Or.inl h2)
  by_cases h3 : chAt p k = '.'
  · exact Or.inr (Or.inr h3)
  · rw [if_neg h1, if_neg h2, if_neg h3] at h
    exact absurd h (by simp)

/-- Claim C9: for every input string, `ParsePathWithLineSpec` returns either
`(prefix, parsed selection)` when a candidate colon is found and the text
after it parses as a line spec, or `(the original string, the all-lines
selection)` in every other case, including when parsing after a candidate
colon fails — it never raises an error to its caller.  In particular the
Windows drive-letter guard never alters the result, because a candidate
colon is by construction followed by a digit, `-`, or `.`, never by a path
separator. -/
theorem claim_C9_path_spec_never_fails :
    ∀ path : List Char,
      parsePathWithLineSpecL path =
        match findColonPos path with
        | none => (path, LineSelection.all)
        | some c =>
          match parseRangeStringL (path.drop (c + 1)) with
          | .ok r => (path.take c, LineSelection.ofRanges [r])
          | .error _ => (path, LineSelection.all) := by
  intro path
  rcases h : findColonPos path with _ | c
  · simp [parsePathWithLineSpecL, h]
  · have hspec : specStartsAt path (c + 1) = true :=
      findColonAux_spec path path.length c h
    have hnext := specStartsAt_next hspec
    have hbs : chAt path (c + 1) ≠ '\\' := by
      intro he
      rcases hnext with hd | hd | hd
      · rw [he] at hd; exact absurd hd (by decide)
      · rw [he] at hd; exact absurd hd (by decide)
      · rw [he] at hd; exact absurd hd (by decide)
    have hsl : chAt path (c + 1) ≠ '/' := by
      intro he
      rcases hnext with hd | hd | hd
      · rw [he] at hd; exact absurd hd (by decide)
      · rw [he] at hd; exact absurd hd (by decide)
      · rw [he] at hd; exact absurd hd (by decide)
    simp only [parsePathWithLineSpecL, h]
    have hguard :
        ¬((decide (c = 1) && isAlphaC (chAt path 0) &&
          (decide (c + 1 < path.length) &&
            (decide (chAt path (c + 1) = '\\') ||
              decide (chAt path (c + 1) = '/')))) = true) := by
      intro hcond
      obtain ⟨-, h2⟩ := Bool.and_eq_true_iff.mp hcond
      obtain ⟨-, h3⟩ := Bool.and_eq_true_iff.mp h2
      rcases Bool.or_eq_true_iff.mp h3 with h4 | h4
      · exact hbs (of_decide_eq_true h4)
      · exact hsl (of_decide_eq_true h4)
    rw [if_neg hguard]

/-! ### Order-independence of the merge for bounded ranges -/

theorem covers_cons {x : LineRange} {l : List LineRange} {n : Int} :
    covers (x :: l) n ↔ (x.start ≤ n ∧ n ≤ x.stop) ∨ covers l n := by
  simp [covers, List.mem_cons, or_and_right, exists_or]

theorem covers_perm {l1 l2 : List LineRange} (h : l1.Perm l2) (n : Int) :
    covers l1 n ↔ covers l2 n := by
  constructor
  · rintro ⟨r, hr, hb⟩; exact ⟨r, h.mem_iff.mp hr, hb⟩
  · rintro ⟨r, hr, hb⟩; exact ⟨r, h.mem_iff.mpr hr, hb⟩

theorem ValidR.wrap_succ {r : LineRange} (h : ValidR r) :
    i64wrap (r.stop + 1) = r.stop + 1 := by
  obtain ⟨h1, h2, h3⟩ := h
  exact i64wrap_eq_self (by simp only [I64_MIN]; omega) (by omega)

theorem mergeLoop_covers (rest : List LineRange) :
    ∀ a, List.Pairwise (fun x y => x.start ≤ y.start) (a :: rest) →
      (∀ r ∈ a :: rest, ValidR r) →
      ∀ n, (covers (mergeLoop a rest) n ↔ covers (a :: rest) n) := by
  induction rest with
  | nil => intro a _ _ n; simp [mergeLoop]
  | cons c cs ih =>
    intro a hsort hval n
    have hva : ValidR a := hval a (List.mem_cons_self a _)
    have hvc : ValidR c := hval c (by simp)
    have hsc := List.pairwise_cons.mp hsort
    have hac : a.start ≤ c.start := hsc.1 c (List.mem_cons_self c cs)
    simp only [mergeLoop]
    split
    · rename_i hcond
      have hc_le : c.start ≤ a.stop + 1 := by
        rw [hva.wrap_succ] at hcond
        exact of_decide_eq_true hcond
      have hsort2 : List.Pairwise (fun x y => x.start ≤ y.start)
          (LineRange.mk a.start (max a.stop c.stop) :: cs) := by
        rw [List.pairwise_cons]
        exact ⟨fun y hy => hsc.1 y (List.mem_cons_of_mem c hy),
          (List.pairwise_cons.mp hsc.2).2⟩
      have hval2 : ∀ r ∈ LineRange.mk a.start (max a.stop c.stop) :: cs,
          ValidR r := by
        intro r hr
        rcases List.mem_cons.mp hr with hr | hr
        · rw [hr]
          obtain ⟨ha1, ha2, ha3⟩ := hva
          obtain ⟨hc1, hc2, hc3⟩ := hvc
          refine ⟨ha1, by simp only; omega, by simp only; omega⟩
        · exact hval r (List.mem_cons_of_mem a (List.mem_cons_of_mem c hr))
      rw [ih _ hsort2 hval2 n, covers_cons, covers_cons, covers_cons]
      have hiff : (a.start ≤ n ∧ n ≤ max a.stop c.stop) ↔
          ((a.start ≤ n ∧ n ≤ a.stop) ∨ (c.start ≤ n ∧ n ≤ c.stop)) := by
        rcases le_total a.stop c.stop with hmx | hmx
        · rw [max_eq_right hmx]; omega
        · rw [max_eq_left hmx]; omega
      rw [hiff]
      tauto
    · rw [covers_cons, ih c hsc.2 (fun r hr => hval r (List.mem_cons_of_mem a hr)) n]
      exact Iff.symm covers_cons

theorem mergeLoop_valid (rest : List LineRange) :
    ∀ a, (∀ r ∈ a :: rest, ValidR r) → ∀ y ∈ mergeLoop a rest, ValidR y := by
  induction rest with
  | nil =>
    intro a hval y hy
    simp only [mergeLoop, List.mem_singleton] at hy
    rw [hy]; exact hval a (List.mem_cons_self a _)
  | cons c cs ih =>
    intro a hval y hy
    have hva : ValidR a := hval a (List.mem_cons_self a _)
    have hvc : ValidR c := hval c (by simp)
    simp only [mergeLoop] at hy
    split at hy
    · refine ih _ ?_ y hy
      intro r hr
      rcases List.mem_cons.mp hr with hr | hr
      · rw [hr]
        obtain ⟨ha1, ha2, ha3⟩ := hva
        obtain ⟨hc1, hc2, hc3⟩ := hvc
        refine ⟨ha1, by simp only; omega, by simp only; omega⟩
      · exact hval r (List.mem_cons_of_mem a (List.mem_cons_of_mem c hr))
    · rcases List.mem_cons.mp hy with hy | hy
      · rw [hy]; exact hva
      · exact ih c (fun r hr => hval r (List.mem_cons_of_mem a hr)) y hy

theorem mergeLoop_gap (rest : List LineRange) :
    ∀ a, List.Pairwise (fun x y => x.start ≤ y.start) (a :: rest) →
      (∀ r ∈ a :: rest, ValidR r) →
      List.Pairwise (fun x y => x.stop + 1 < y.start) (mergeLoop a rest) := by
  induction rest with
  | nil => intro a _ _; simp [mergeLoop]
  | cons c cs ih =>
    intro a hsort hval
    have hva : ValidR a := hval a (List.mem_cons_self a _)
    have hvc : ValidR c := hval c (by simp)
    have hsc := List.pairwise_cons.mp hsort
    simp only [mergeLoop]
    split
    · refine ih _ ?_ ?_
      · rw [List.pairwise_cons]
        exact ⟨fun y hy => hsc.1 y (List.mem_cons_of_mem c hy),
          (List.pairwise_cons.mp hsc.2).2⟩
      · intro r hr
        rcases List.mem_cons.mp hr with hr | hr
        · rw [hr]
          obtain ⟨ha1, ha2, ha3⟩ := hva
          obtain ⟨hc1, hc2, hc3⟩ := hvc
          refine ⟨ha1, by simp only; omega, by simp only; omega⟩
        · exact hval r (List.mem_cons_of_mem a (List.mem_cons_of_mem c hr))
    · rename_i hcond
      rw [hva.wrap_succ] at hcond
      have hgt : a.stop + 1 < c.start := by
        rcases le_or_lt c.start (a.stop + 1) with h | h
        · exact absurd (decide_eq_true h) hcond
        · exact h
      rw [List.pairwise_cons]
      refine ⟨fun y hy => ?_,
        ih c hsc.2 (fun r hr => hval r (List.mem_cons_of_mem a hr))⟩
      rcases mergeLoop_mem_start cs c y hy with ⟨x, hx, hee⟩
      rw [hee]
      rcases List.mem_cons.mp hx with hx | hx
      · rw [hx]; exact hgt
      · have := (List.pairwise_cons.mp hsc.2).1 x hx
        omega

theorem mergeRanges_covers (l : List LineRange)
    (hval : ∀ r ∈ l, ValidR r) (n : Int) :
    covers (mergeRanges l) n ↔ covers l n := by
  have hperm := sortByStart_perm l
  have hvs : ∀ r ∈ sortByStart l, ValidR r :=
    fun r hr => hval r (hperm.mem_iff.mp hr)
  have hsort := sortByStart_sorted l
  rw [mergeRanges]
  rcases hs : sortByStart l with _ | ⟨x, xs⟩
  · rw [hs] at hperm
    rw [hperm.symm.eq_nil]
  · rw [hs] at hperm hvs hsort
    exact (mergeLoop_covers xs x hsort hvs n).trans (covers_perm hperm n)

theorem mergeRanges_valid (l : List LineRange)
    (hval : ∀ r ∈ l, ValidR r) : ∀ y ∈ mergeRanges l, ValidR y := by
  have hperm := sortByStart_perm l
  have hvs : ∀ r ∈ sortByStart l, ValidR r :=
    fun r hr => hval r (hperm.mem_iff.mp hr)
  rw [mergeRanges]
  rcases hs : sortByStart l with _ | ⟨x, xs⟩
  · intro y hy; exact absurd hy (List.not_mem_nil y)
  · rw [hs] at hvs
    exact mergeLoop_valid xs x hvs

theorem mergeRanges_gap (l : List LineRange)
    (hval : ∀ r ∈ l, ValidR r) :
    List.Pairwise (fun x y => x.stop + 1 < y.start) (mergeRanges l) := by
  have hperm := sortByStart_perm l
  have hvs : ∀ r ∈ sortByStart l, ValidR r :=
    fun r hr => hval r (hperm.mem_iff.mp hr)
  have hsort := sortByStart_sorted l
  rw [mergeRanges]
  rcases hs : sortByStart l with _ | ⟨x, xs⟩
  · exact List.Pairwise.nil
  · rw [hs] at hvs hsort
    exact mergeLoop_gap xs x hsort hvs

/-- A sorted, gap-separated list of nonempty integer intervals is uniquely
determined by its point set. -/
theorem canon_unique : ∀ (l1 l2 : List LineRange),
    (∀ r ∈ l1, r.start ≤ r.stop) → (∀ r ∈ l2, r.start ≤ r.stop) →
    List.Pairwise (fun x y => x.stop + 1 < y.start) l1 →
    List.Pairwise (fun x y => x.stop + 1 < y.start) l2 →
    (∀ n, covers l1 n ↔ covers l2 n) → l1 = l2 := by
  intro l1
  induction l1 with
  | nil =>
    intro l2 _ hv2 _ _ hcov
    rcases l2 with _ | ⟨b, t2⟩
    · rfl
    · exfalso
      have hb : covers (b :: t2) b.start :=
        ⟨b, List.mem_cons_self b t2, le_refl _, hv2 b (List.mem_cons_self b t2)⟩
      rcases (hcov b.start).mpr hb with ⟨r, hr, -⟩
      exact absurd hr (List.not_mem_nil r)
  | cons a t1 ih =>
    intro l2 hv1 hv2 hg1 hg2 hcov
    rcases l2 with _ | ⟨b, t2⟩
    · exfalso
      have ha : covers (a :: t1) a.start :=
        ⟨a, List.mem_cons_self a t1, le_refl _, hv1 a (List.mem_cons_self a t1)⟩
      rcases (hcov a.start).mp ha with ⟨r, hr, -⟩
      exact absurd hr (List.not_mem_nil r)
    · have hva : a.start ≤ a.stop := hv1 a (List.mem_cons_self a t1)
      have hvb : b.start ≤ b.stop := hv2 b (List.mem_cons_self b t2)
      have hg1c := List.pairwise_cons.mp hg1
      have hg2c := List.pairwise_cons.mp hg2
      have hsab : b.start ≤ a.start := by
        have hc : covers (b :: t2) a.start :=
          (hcov a.start).mp ⟨a, List.mem_cons_self a t1, le_refl _, hva⟩
        rcases hc with ⟨r, hr, hr1, hr2⟩
        rcases List.mem_cons.mp hr with hr | hr
        · rw [hr] at hr1; exact hr1
        · have := hg2c.1 r hr; omega
      have hsba : a.start ≤ b.start := by
        have hc : covers (a :: t1) b.start :=
          (hcov b.start).mpr ⟨b, List.mem_cons_self b t2, le_refl _, hvb⟩
        rcases hc with ⟨r, hr, hr1, hr2⟩
        rcases List.mem_cons.mp hr with hr | hr
        · rw [hr] at hr1; exact hr1
        · have := hg1c.1 r hr; omega
      have hstart : a.start = b.start := le_antisymm hsba hsab
      have hstab : ¬(a.stop < b.stop) := by
        intro hlt
        have hc : covers (b :: t2) (a.stop + 1) :=
          ⟨b, List.mem_cons_self b t2, by omega, by omega⟩
        rcases (hcov _).mpr hc with ⟨r, hr, hr1, hr2⟩
        rcases List.mem_cons.mp hr with hr | hr
        · rw [hr] at hr2; omega
        · have := hg1c.1 r hr; omega
      have hstba : ¬(b.stop < a.stop) := by
        intro hlt
        have hc : covers (a :: t1) (b.stop + 1) :=
          ⟨a, List.mem_cons_self a t1, by omega, by omega⟩
        rcases (hcov _).mp hc with ⟨r, hr, hr1, hr2⟩
        rcases List.mem_cons.mp hr with hr | hr
        · rw [hr] at hr2; omega
        · have := hg2c.1 r hr; omega
      have hstop : a.stop = b.stop := by omega
      have htcov : ∀ n, covers t1 n ↔ covers t2 n := by
        intro n
        constructor
        · rintro ⟨r, hr, hr1, hr2⟩
          have hn : a.stop < n := by have := hg1c.1 r hr; omega
          have hc : covers (b :: t2) n :=
            (hcov n).mp ⟨r, List.mem_cons_of_mem a hr, hr1, hr2⟩
          rcases hc with ⟨r', hr', hb1, hb2⟩
          rcases List.mem_cons.mp hr' with hr' | hr'
          · rw [hr'] at hb2; omega
          · exact ⟨r', hr', hb1, hb2⟩
        · rintro ⟨r, hr, hr1, hr2⟩
          have hn : b.stop < n := by have := hg2c.1 r hr; omega
          have hc : covers (a :: t1) n :=
            (hcov n).mpr ⟨r, List.mem_cons_of_mem b hr, hr1, hr2⟩
          rcases hc with ⟨r', hr', hb1, hb2⟩
          rcases List.mem_cons.mp hr' with hr' | hr'
          · rw [hr'] at hb2; omega
          · exact ⟨r', hr', hb1, hb2⟩
      have hteq : t1 = t2 :=
        ih t2 (fun r hr => hv1 r (List.mem_cons_of_mem a hr))
          (fun r hr => hv2 r (List.mem_cons_of_mem b hr))
          hg1c.2 hg2c.2 htcov
      have hab : a = b := by
        obtain ⟨as, ae⟩ := a
        obtain ⟨bs, be⟩ := b
        simp only at hstart hstop
        rw [hstart, hstop]
      rw [hab, hteq]

/-- Claim C3, amended: `MergeRanges` is order-independent on every multiset
of valid ranges whose ends stay strictly below the unbounded-tail sentinel
`INT64_MAX` (so that the adjacency comparison cannot overflow): any two
permutations of such a range list normalize to the identical canonical
output. -/
theorem claim_C3_amended (l1 l2 : List LineRange) (hperm : l1.Perm l2)
    (hval : ∀ r ∈ l1, 1 ≤ r.start ∧ r.start ≤ r.stop ∧ r.stop < I64_MAX) :
    mergeRanges l1 = mergeRanges l2 := by
  have hval1 : ∀ r ∈ l1, ValidR r := hval
  have hval2 : ∀ r ∈ l2, ValidR r :=
    fun r hr => hval1 r (hperm.mem_iff.mpr hr)
  refine canon_unique _ _
    (fun r hr => ((mergeRanges_valid l1 hval1) r hr).2.1)
    (fun r hr => ((mergeRanges_valid l2 hval2) r hr).2.1)
    (mergeRanges_gap l1 hval1) (mergeRanges_gap l2 hval2) ?_
  intro n
  exact (mergeRanges_covers l1 hval1 n).trans
    ((covers_perm hperm n).trans (mergeRanges_covers l2 hval2 n).symm)

/-- Witness for claim C3 (amended): the two orderings of the valid bounded
range multiset containing `[10,12]` and `[1,5]` normalize identically. -/
theorem claim_C3_witness :
    ([⟨10, 12⟩, ⟨1, 5⟩] : List LineRange).Perm [⟨1, 5⟩, ⟨10, 12⟩] ∧
    (∀ r ∈ ([⟨10, 12⟩, ⟨1, 5⟩] : List LineRange),
      1 ≤ r.start ∧ r.start ≤ r.stop ∧ r.stop < I64_MAX) ∧
    mergeRanges [⟨10, 12⟩, ⟨1, 5⟩] = mergeRanges [⟨1, 5⟩, ⟨10, 12⟩] :=
  ⟨by decide, by decide, claim_C3_amended _ _ (by decide) (by decide)⟩

end ReadLines
